import Mathlib

/-!
Verification of the PALHM core (host-maintenance and backup orchestrator)
against its natural-language specification.

The Python source (`src/palhm/__init__.py`) is shallowly embedded below:
pure functions become Lean functions, process state (the filesystem tree of
backup copies, the mutable exec registry, the shared include set) becomes
explicit state passing, exceptions become `Option`/`Except` results, and
`Decimal('Infinity')` quota limits become `Option Nat` with `none`
standing for infinity.
-/

set_option autoImplicit false

namespace PALHM

/-! ## Rotation core (`BackupBackend._do_fs_rotate`) -/

/-- Quota target returned by `_fs_quota_target`: `nb_copy_limit` and
`root_size_limit`, each a `Decimal` that may be `Infinity` (`none`). -/
structure QuotaTarget where
  nb_copy_limit : Option Nat
  root_size_limit : Option Nat
deriving DecidableEq, Repr

/-- Test `lim ≥ x` where `lim` may be infinite (`Decimal` comparison in the
source: `root_size_limit >= tot_size`, `nb_copy_limit >= len(dirs)`). -/
def qGE (lim : Option Nat) (x : Nat) : Bool :=
  match lim with
  | none => true
  | some v => x ≤ v

/-- The quantity `tot - lim` (`size_delta` / `dir_delta` in the source).
When `lim` is infinite the delta is `-∞`, modelled as `none`. -/
def deltaOf (tot : Nat) (lim : Option Nat) : Option Int :=
  match lim with
  | none => none
  | some v => some ((tot : Int) - (v : Int))

/-- Test `x < d` where `d` may be `-∞` (in which case the test is false). -/
def ltDelta (x : Nat) (d : Option Int) : Bool :=
  match d with
  | none => false
  | some v => (x : Int) < v

/-- Total of the sizes in a usage list (`tot_size` accumulation loop). -/
def sumSizes (dirs : List (String × Nat)) : Nat :=
  (dirs.map Prod.snd).sum

/-- The `while dirs and (del_size < size_delta or len(del_list) < dir_delta)`
loop of `_do_fs_rotate`: pop the head of `dirs`, skip it if excluded,
otherwise move its id onto `del_list` and add its size to `del_size`. -/
def rotateLoop (excl : List String) (sd dd : Option Int) :
    List (String × Nat) → List String → Nat → List String
  | [], del_list, _ => del_list
  | p :: rest, del_list, del_size =>
    if ltDelta del_size sd || ltDelta del_list.length dd then
      if p.1 ∈ excl then
        rotateLoop excl sd dd rest del_list del_size
      else
        rotateLoop excl sd dd rest (del_list ++ [p.1]) (del_size + p.2)
    else del_list

/-- Embeds `BackupBackend._do_fs_rotate`.  Inputs are the quota target,
the usage list `dirs = _fs_usage_info(ctx)` (sorted oldest-first by the
backend) and the exclusion set `excl = _excl_fs_copies(ctx)`.  The return
value is the `del_list` handed to `_rm_fs_recursive`. -/
def do_fs_rotate (q : QuotaTarget) (dirs : List (String × Nat))
    (excl : List String) : List String :=
  let tot_size := sumSizes dirs
  if qGE q.root_size_limit tot_size && qGE q.nb_copy_limit dirs.length then []
  else
    rotateLoop excl (deltaOf tot_size q.root_size_limit)
      (deltaOf dirs.length q.nb_copy_limit) dirs [] 0

/-- The needed amount of a resource per the spec wording:
`need_bytes = max(0, total − max_bytes)` (and similarly for copies), with
an infinite limit needing nothing. -/
def needOf (tot : Nat) (lim : Option Nat) : Nat :=
  match lim with
  | none => 0
  | some v => tot - v

/-- Spec-worded rotation walk (for the refinement statement of the rotation
claim): walk `D` in order, skipping excluded ids, moving entries into the
delete list until both `Σ deleted_size ≥ need_bytes` and
`|delete_list| ≥ need_copies`, stopping when the list is exhausted. -/
def rotateSpecWalk (excl : List String) (need_bytes need_copies : Nat) :
    List (String × Nat) → List String → Nat → List String
  | [], del_list, _ => del_list
  | p :: rest, del_list, del_size =>
    if need_bytes ≤ del_size ∧ need_copies ≤ del_list.length then del_list
    else if p.1 ∈ excl then
      rotateSpecWalk excl need_bytes need_copies rest del_list del_size
    else
      rotateSpecWalk excl need_bytes need_copies rest
        (del_list ++ [p.1]) (del_size + p.2)

/-- Spec-worded rotation, assembled from the spec's steps 1-5: return
nothing when both quotas already hold, else run the walk. -/
def rotate_spec (q : QuotaTarget) (dirs : List (String × Nat))
    (excl : List String) : List String :=
  let tot := sumSizes dirs
  if qGE q.root_size_limit tot && qGE q.nb_copy_limit dirs.length then []
  else
    rotateSpecWalk excl (needOf tot q.root_size_limit)
      (needOf dirs.length q.nb_copy_limit) dirs [] 0

theorem ltDelta_deltaOf (x tot : Nat) (lim : Option Nat) :
    ltDelta x (deltaOf tot lim) = decide (x < needOf tot lim) := by
  cases lim with
  | none => simp [ltDelta, deltaOf, needOf]
  | some v =>
    show decide ((x : Int) < (tot : Int) - (v : Int)) = decide (x < tot - v)
    rw [decide_eq_decide]
    omega

theorem rotateLoop_eq_specWalk (excl : List String) (tot nb : Nat)
    (bl cl : Option Nat) :
    ∀ (dirs : List (String × Nat)) (del : List String) (dsz : Nat),
    rotateLoop excl (deltaOf tot bl) (deltaOf nb cl) dirs del dsz =
      rotateSpecWalk excl (needOf tot bl) (needOf nb cl) dirs del dsz := by
  intro dirs
  induction dirs with
  | nil => intro del dsz; rfl
  | cons p rest ih =>
    intro del dsz
    rw [rotateLoop, rotateSpecWalk]
    rw [ltDelta_deltaOf, ltDelta_deltaOf]
    by_cases h : dsz < needOf tot bl ∨ del.length < needOf nb cl
    · have hcond : (decide (dsz < needOf tot bl) ||
          decide (del.length < needOf nb cl)) = true := by
        rcases h with h | h <;> simp [h]
      have hne : ¬ (needOf tot bl ≤ dsz ∧ needOf nb cl ≤ del.length) := by
        omega
      rw [if_pos hcond, if_neg hne]
      by_cases he : p.1 ∈ excl
      · rw [if_pos he, if_pos he, ih]
      · rw [if_neg he, if_neg he, ih]
    · have hcond : ¬ ((decide (dsz < needOf tot bl) ||
          decide (del.length < needOf nb cl)) = true) := by
        simp only [Bool.or_eq_true, decide_eq_true_eq]
        exact h
      have hyes : needOf tot bl ≤ dsz ∧ needOf nb cl ≤ del.length := by omega
      rw [if_neg hcond, if_pos hyes]

/-- C1: the shared rotation algorithm returns an empty delete list when both
quotas hold, and otherwise performs exactly the spec's skipping walk with
`need_bytes`/`need_copies` thresholds, deleting exactly that list. -/
theorem rotation_algorithm_follows_spec (q : QuotaTarget)
    (dirs : List (String × Nat)) (excl : List String) :
    do_fs_rotate q dirs excl = rotate_spec q dirs excl := by
  unfold do_fs_rotate rotate_spec
  by_cases h : (qGE q.root_size_limit (sumSizes dirs)
      && qGE q.nb_copy_limit dirs.length) = true
  · simp only [h, if_true]
  · simp only [h, if_false]
    exact rotateLoop_eq_specWalk excl (sumSizes dirs) dirs.length
      q.root_size_limit q.nb_copy_limit dirs [] 0

/-! ### Residual state after rotation -/

/-- Embeds `LocalfsBackupBackend._excl_fs_copies`: the singleton set holding the
current run's copy path (`cur_backup_path`). -/
def excl_fs_copies (cur : String) : List String := [cur]

/-- The copies that remain once `_rm_fs_recursive(ctx, del_list)` has run:
the usage entries whose id was not placed on the delete list. -/
def remaining (dirs : List (String × Nat)) (del : List String) :
    List (String × Nat) :=
  dirs.filter (fun p => ! decide (p.1 ∈ del))

/-- Instrumented form of the rotation loop: same control flow, but it also
returns the skipped (excluded) entries and the unprocessed tail, and keeps
the deleted entries with their sizes. -/
def rotateLoopFull (excl : List String) (sd dd : Option Int) :
    List (String × Nat) → List (String × Nat) → List (String × Nat) →
    List (String × Nat) × List (String × Nat) × List (String × Nat)
  | [], del, sk => (del, sk, [])
  | p :: rest, del, sk =>
    if ltDelta (sumSizes del) sd || ltDelta del.length dd then
      if p.1 ∈ excl then rotateLoopFull excl sd dd rest del (sk ++ [p])
      else rotateLoopFull excl sd dd rest (del ++ [p]) sk
    else (del, sk, p :: rest)

theorem sumSizes_append (a b : List (String × Nat)) :
    sumSizes (a ++ b) = sumSizes a + sumSizes b := by
  simp [sumSizes]

theorem sumSizes_cons (p : String × Nat) (l : List (String × Nat)) :
    sumSizes (p :: l) = p.2 + sumSizes l := by
  simp [sumSizes]

theorem rotateLoop_eq_full (excl : List String) (sd dd : Option Int) :
    ∀ (dirs del sk : List (String × Nat)),
    rotateLoop excl sd dd dirs (del.map Prod.fst) (sumSizes del) =
      (rotateLoopFull excl sd dd dirs del sk).1.map Prod.fst := by
  intro dirs
  induction dirs with
  | nil => intro del sk; rfl
  | cons p rest ih =>
    intro del sk
    rw [rotateLoop, rotateLoopFull, List.length_map]
    by_cases hc : (ltDelta (sumSizes del) sd || ltDelta del.length dd) = true
    · rw [if_pos hc, if_pos hc]
      by_cases he : p.1 ∈ excl
      · rw [if_pos he, if_pos he]
        exact ih del (sk ++ [p])
      · rw [if_neg he, if_neg he]
        have h1 : del.map Prod.fst ++ [p.1] = (del ++ [p]).map Prod.fst := by
          simp
        have h2 : sumSizes del + p.2 = sumSizes (del ++ [p]) := by
          simp [sumSizes]
        rw [h1, h2]
        exact ih (del ++ [p]) sk
    · rw [if_neg hc, if_neg hc]

theorem rotateLoopFull_exit (excl : List String) (sd dd : Option Int) :
    ∀ (dirs del sk : List (String × Nat)),
    (rotateLoopFull excl sd dd dirs del sk).2.2 = [] ∨
      (ltDelta (sumSizes (rotateLoopFull excl sd dd dirs del sk).1) sd = false ∧
       ltDelta (rotateLoopFull excl sd dd dirs del sk).1.length dd = false) := by
  intro dirs
  induction dirs with
  | nil => intro del sk; left; rfl
  | cons p rest ih =>
    intro del sk
    rw [rotateLoopFull]
    by_cases hc : (ltDelta (sumSizes del) sd || ltDelta del.length dd) = true
    · rw [if_pos hc]
      by_cases he : p.1 ∈ excl
      · rw [if_pos he]
        exact ih del (sk ++ [p])
      · rw [if_neg he]
        exact ih (del ++ [p]) sk
    · rw [if_neg hc]
      right
      simp only [Bool.or_eq_true, not_or, Bool.not_eq_true] at hc
      exact hc

theorem rotateLoopFull_parts (excl : List String) (sd dd : Option Int) :
    ∀ (dirs del sk : List (String × Nat)),
    ∃ nd ns,
      (rotateLoopFull excl sd dd dirs del sk).1 = del ++ nd ∧
      (rotateLoopFull excl sd dd dirs del sk).2.1 = sk ++ ns ∧
      (∀ p ∈ nd, p ∈ dirs ∧ p.1 ∉ excl) ∧
      (∀ p ∈ ns, p ∈ dirs ∧ p.1 ∈ excl) ∧
      dirs.length = nd.length + ns.length +
        (rotateLoopFull excl sd dd dirs del sk).2.2.length ∧
      sumSizes dirs = sumSizes nd + sumSizes ns +
        sumSizes (rotateLoopFull excl sd dd dirs del sk).2.2 := by
  intro dirs
  induction dirs with
  | nil =>
    intro del sk
    refine ⟨[], [], ?_, ?_, ?_, ?_, ?_, ?_⟩ <;>
      simp [rotateLoopFull, sumSizes]
  | cons p rest ih =>
    intro del sk
    rw [rotateLoopFull]
    by_cases hc : (ltDelta (sumSizes del) sd || ltDelta del.length dd) = true
    · rw [if_pos hc]
      by_cases he : p.1 ∈ excl
      · rw [if_pos he]
        obtain ⟨nd, ns, h1, h2, h3, h4, h5, h6⟩ := ih del (sk ++ [p])
        refine ⟨nd, p :: ns, h1, ?_, ?_, ?_, ?_, ?_⟩
        · rw [h2, List.append_assoc, List.singleton_append]
        · intro q hq
          obtain ⟨hm, hx⟩ := h3 q hq
          exact ⟨List.mem_cons_of_mem p hm, hx⟩
        · intro q hq
          rcases List.mem_cons.mp hq with h | h
          · subst h
            exact ⟨List.mem_cons_self _ _, he⟩
          · obtain ⟨hm, hx⟩ := h4 q h
            exact ⟨List.mem_cons_of_mem p hm, hx⟩
        · simp only [List.length_cons]
          omega
        · rw [sumSizes_cons, sumSizes_cons]
          omega
      · rw [if_neg he]
        obtain ⟨nd, ns, h1, h2, h3, h4, h5, h6⟩ := ih (del ++ [p]) sk
        refine ⟨p :: nd, ns, ?_, h2, ?_, ?_, ?_, ?_⟩
        · rw [h1, List.append_assoc, List.singleton_append]
        · intro q hq
          rcases List.mem_cons.mp hq with h | h
          · subst h
            exact ⟨List.mem_cons_self _ _, he⟩
          · obtain ⟨hm, hx⟩ := h3 q h
            exact ⟨List.mem_cons_of_mem p hm, hx⟩
        · intro q hq
          obtain ⟨hm, hx⟩ := h4 q hq
          exact ⟨List.mem_cons_of_mem p hm, hx⟩
        · simp only [List.length_cons]
          omega
        · rw [sumSizes_cons, sumSizes_cons]
          omega
    · rw [if_neg hc]
      refine ⟨[], [], by simp, by simp, by simp, by simp, by simp, ?_⟩
      simp [sumSizes]

theorem remaining_cons_keep (p : String × Nat) (rest : List (String × Nat))
    (ids : List String) (h : p.1 ∉ ids) :
    remaining (p :: rest) ids = p :: remaining rest ids := by
  simp [remaining, List.filter_cons, h]

theorem remaining_cons_drop (p : String × Nat) (rest : List (String × Nat))
    (ids : List String) (h : p.1 ∈ ids) :
    remaining (p :: rest) ids = remaining rest ids := by
  simp [remaining, List.filter_cons, h]

theorem rotateLoopFull_remaining (excl : List String) (sd dd : Option Int) :
    ∀ (dirs del sk : List (String × Nat)),
    ((del ++ dirs).map Prod.fst).Nodup →
    remaining dirs ((rotateLoopFull excl sd dd dirs del sk).1.map Prod.fst) =
      (rotateLoopFull excl sd dd dirs del sk).2.1.drop sk.length ++
        (rotateLoopFull excl sd dd dirs del sk).2.2 := by
  intro dirs
  induction dirs with
  | nil =>
    intro del sk h
    simp [rotateLoopFull, remaining, List.drop_length]
  | cons p rest ih =>
    intro del sk hnd
    have hdisj : List.Disjoint (del.map Prod.fst) ((p :: rest).map Prod.fst) := by
      rw [List.map_append] at hnd
      exact (List.nodup_append.mp hnd).2.2
    rw [rotateLoopFull]
    by_cases hc : (ltDelta (sumSizes del) sd || ltDelta del.length dd) = true
    · rw [if_pos hc]
      by_cases he : p.1 ∈ excl
      · rw [if_pos he]
        obtain ⟨nd, ns, h1, h2, h3, h4, h5, h6⟩ :=
          rotateLoopFull_parts excl sd dd rest del (sk ++ [p])
        have hpdel : p.1 ∉ del.map Prod.fst := fun hmem =>
          hdisj hmem (by simp)
        have hpnd : p.1 ∉ nd.map Prod.fst := by
          intro hmem
          obtain ⟨q, hq, hq1⟩ := List.mem_map.mp hmem
          exact (h3 q hq).2 (hq1 ▸ he)
        have hpk : p.1 ∉
            (rotateLoopFull excl sd dd rest del (sk ++ [p])).1.map Prod.fst := by
          rw [h1, List.map_append]
          intro hmem
          rcases List.mem_append.mp hmem with h | h
          · exact hpdel h
          · exact hpnd h
        rw [remaining_cons_keep p rest _ hpk]
        have hsub : ((del ++ rest).map Prod.fst).Nodup := by
          refine List.Nodup.sublist ?_ hnd
          exact List.Sublist.map Prod.fst
            (List.Sublist.append_left (List.sublist_cons_self p rest) del)
        rw [ih del (sk ++ [p]) hsub, h2]
        rw [List.append_assoc, List.singleton_append]
        rw [List.drop_left, List.length_append, List.length_singleton]
        have : sk.length + 1 = (sk ++ [p]).length := by simp
        rw [this]
        have h2' : sk ++ p :: ns = (sk ++ [p]) ++ ns := by
          rw [List.append_assoc, List.singleton_append]
        rw [h2', List.drop_left]
        rfl
      · rw [if_neg he]
        obtain ⟨nd, ns, h1, h2, h3, h4, h5, h6⟩ :=
          rotateLoopFull_parts excl sd dd rest (del ++ [p]) sk
        have hpk : p.1 ∈
            (rotateLoopFull excl sd dd rest (del ++ [p]) sk).1.map Prod.fst := by
          rw [h1]
          simp
        rw [remaining_cons_drop p rest _ hpk]
        have hsub : (((del ++ [p]) ++ rest).map Prod.fst).Nodup := by
          rw [List.append_assoc, List.singleton_append]
          exact hnd
        exact ih (del ++ [p]) sk hsub
    · rw [if_neg hc]
      have hall : remaining (p :: rest) (del.map Prod.fst) = p :: rest := by
        rw [remaining, List.filter_eq_self]
        intro q hq
        have : q.1 ∉ del.map Prod.fst := by
          intro hmem
          exact hdisj hmem (List.mem_map_of_mem Prod.fst hq)
        simp [this]
      rw [hall, List.drop_length]
      rfl

theorem do_fs_rotate_def (q : QuotaTarget) (dirs : List (String × Nat))
    (excl : List String) :
    do_fs_rotate q dirs excl =
      if qGE q.root_size_limit (sumSizes dirs) &&
          qGE q.nb_copy_limit dirs.length then []
      else
        rotateLoop excl (deltaOf (sumSizes dirs) q.root_size_limit)
          (deltaOf dirs.length q.nb_copy_limit) dirs [] 0 := rfl

theorem qGE_of_need (lim : Option Nat) (tot used : Nat)
    (h : needOf tot lim ≤ used) : qGE lim (tot - used) = true := by
  cases lim with
  | none => rfl
  | some v =>
    simp only [needOf] at h
    simp only [qGE, decide_eq_true_eq]
    omega

theorem nodup_all_eq_singleton {α : Type} (l : List α) (c : α)
    (h1 : l.Nodup) (h2 : c ∈ l) (h3 : ∀ x ∈ l, x = c) : l = [c] := by
  cases l with
  | nil => cases h2
  | cons a t =>
    have ha : a = c := h3 a (List.mem_cons_self _ _)
    subst ha
    have ht : t = [] := by
      rw [List.eq_nil_iff_forall_not_mem]
      intro x hx
      have : x = a := h3 x (List.mem_cons_of_mem a hx)
      subst this
      exact (List.nodup_cons.mp h1).1 hx
    rw [ht]

/-- C2: after the shared rotation algorithm runs with the exclusion set
produced by `_excl_fs_copies` (the current copy, which is present in the
usage list), the remaining copies either satisfy both quotas or are exactly
the exclusion set. -/
theorem rotation_reestablishes_quotas (q : QuotaTarget)
    (dirs : List (String × Nat)) (cur : String)
    (hnd : (dirs.map Prod.fst).Nodup)
    (hcur : cur ∈ dirs.map Prod.fst) :
    (qGE q.nb_copy_limit
        (remaining dirs (do_fs_rotate q dirs (excl_fs_copies cur))).length = true ∧
     qGE q.root_size_limit
        (sumSizes (remaining dirs (do_fs_rotate q dirs (excl_fs_copies cur)))) = true)
    ∨ (remaining dirs (do_fs_rotate q dirs (excl_fs_copies cur))).map Prod.fst =
        excl_fs_copies cur := by
  rw [do_fs_rotate_def]
  by_cases hq : (qGE q.root_size_limit (sumSizes dirs) &&
      qGE q.nb_copy_limit dirs.length) = true
  · rw [if_pos hq]
    left
    have hq' : qGE q.root_size_limit (sumSizes dirs) = true ∧
        qGE q.nb_copy_limit dirs.length = true := by
      simpa using hq
    have hrem : remaining dirs [] = dirs := by
      simp [remaining]
    rw [hrem]
    exact ⟨hq'.2, hq'.1⟩
  · rw [if_neg hq]
    set F := rotateLoopFull (excl_fs_copies cur)
      (deltaOf (sumSizes dirs) q.root_size_limit)
      (deltaOf dirs.length q.nb_copy_limit) dirs [] [] with hF
    have hdel : rotateLoop (excl_fs_copies cur)
        (deltaOf (sumSizes dirs) q.root_size_limit)
        (deltaOf dirs.length q.nb_copy_limit) dirs [] 0 =
        F.1.map Prod.fst := by
      have := rotateLoop_eq_full (excl_fs_copies cur)
        (deltaOf (sumSizes dirs) q.root_size_limit)
        (deltaOf dirs.length q.nb_copy_limit) dirs [] []
      simpa [sumSizes, hF] using this
    rw [hdel]
    obtain ⟨nd, ns, h1, h2, h3, h4, h5, h6⟩ :=
      rotateLoopFull_parts (excl_fs_copies cur)
        (deltaOf (sumSizes dirs) q.root_size_limit)
        (deltaOf dirs.length q.nb_copy_limit) dirs [] []
    rw [← hF] at h1 h2 h5 h6
    simp only [List.nil_append] at h1 h2
    have hrem : remaining dirs (F.1.map Prod.fst) = ns ++ F.2.2 := by
      have := rotateLoopFull_remaining (excl_fs_copies cur)
        (deltaOf (sumSizes dirs) q.root_size_limit)
        (deltaOf dirs.length q.nb_copy_limit) dirs [] [] (by simpa using hnd)
      rw [← hF, h2] at this
      simpa using this
    rw [hrem]
    have hexit := rotateLoopFull_exit (excl_fs_copies cur)
      (deltaOf (sumSizes dirs) q.root_size_limit)
      (deltaOf dirs.length q.nb_copy_limit) dirs [] []
    rw [← hF] at hexit
    rcases hexit with htail | hcond
    · right
      rw [htail, List.append_nil]
      have hsubl : (ns.map Prod.fst).Sublist (dirs.map Prod.fst) := by
        have hsl : ns.Sublist dirs := by
          have : remaining dirs (F.1.map Prod.fst) = ns := by
            rw [hrem, htail, List.append_nil]
          rw [← this]
          exact List.filter_sublist dirs
        exact List.Sublist.map Prod.fst hsl
      have hns_nodup : (ns.map Prod.fst).Nodup := List.Nodup.sublist hsubl hnd
      have hall : ∀ x ∈ ns.map Prod.fst, x = cur := by
        intro x hx
        obtain ⟨qq, hq1, hq2⟩ := List.mem_map.mp hx
        have := (h4 qq hq1).2
        simp only [excl_fs_copies, List.mem_singleton] at this
        rw [← hq2]
        exact this
      have hcin : cur ∈ ns.map Prod.fst := by
        obtain ⟨pc, hpc1, hpc2⟩ := List.mem_map.mp hcur
        have hpcns : pc ∈ remaining dirs (F.1.map Prod.fst) := by
          rw [remaining, List.mem_filter]
          refine ⟨hpc1, ?_⟩
          have : pc.1 ∉ F.1.map Prod.fst := by
            rw [h1]
            intro hmem
            obtain ⟨qq, hq1, hq2⟩ := List.mem_map.mp hmem
            have := (h3 qq hq1).2
            simp only [excl_fs_copies, List.mem_singleton] at this
            exact this (hq2.trans hpc2)
          simp [this]
        rw [hrem, htail, List.append_nil] at hpcns
        rw [← hpc2]
        exact List.mem_map_of_mem Prod.fst hpcns
      exact nodup_all_eq_singleton _ _ hns_nodup hcin hall
    · left
      rw [h1] at hcond
      obtain ⟨hcs, hcc⟩ := hcond
      rw [ltDelta_deltaOf, decide_eq_false_iff_not, not_lt] at hcs hcc
      constructor
      · have hl : (ns ++ F.2.2).length = dirs.length - nd.length := by
          rw [List.length_append]
          omega
        rw [hl]
        exact qGE_of_need _ _ _ hcc
      · have hs : sumSizes (ns ++ F.2.2) = sumSizes dirs - sumSizes nd := by
          rw [sumSizes_append]
          omega
        rw [hs]
        exact qGE_of_need _ _ _ hcs

/-- Concrete instance of the quota-reestablishment theorem: two copies of
sizes 5 and 7, copy limit 1, size limit 100, current copy `b`. -/
theorem rotation_reestablishes_quotas_witness :
    ((([("a", 5), ("b", 7)] : List (String × Nat)).map Prod.fst).Nodup ∧
      "b" ∈ ([("a", 5), ("b", 7)] : List (String × Nat)).map Prod.fst) ∧
    ((qGE (QuotaTarget.mk (some 1) (some 100)).nb_copy_limit
        (remaining [("a", 5), ("b", 7)]
          (do_fs_rotate ⟨some 1, some 100⟩ [("a", 5), ("b", 7)]
            (excl_fs_copies "b"))).length = true ∧
      qGE (QuotaTarget.mk (some 1) (some 100)).root_size_limit
        (sumSizes (remaining [("a", 5), ("b", 7)]
          (do_fs_rotate ⟨some 1, some 100⟩ [("a", 5), ("b", 7)]
            (excl_fs_copies "b")))) = true) ∨
     (remaining [("a", 5), ("b", 7)]
        (do_fs_rotate ⟨some 1, some 100⟩ [("a", 5), ("b", 7)]
          (excl_fs_copies "b"))).map Prod.fst = excl_fs_copies "b") :=
  ⟨⟨by decide, by decide⟩,
    rotation_reestablishes_quotas ⟨some 1, some 100⟩ [("a", 5), ("b", 7)] "b"
      (by decide) (by decide)⟩

/-! ## Local filesystem backend: open and rollback

The backup root directory is modelled as the list of copy directories, each
with its id (the directory path) and total content size, exactly what
`_fs_usage_info` reports. -/

/-- Embeds `LocalfsBackupBackend.open`: `os.makedirs` of the fresh
`root/<prefix>` directory.  The new copy starts empty (size 0). -/
def localfs_open (st : List (String × Nat)) (cur : String) :
    List (String × Nat) :=
  st ++ [(cur, 0)]

/-- Sinking the pipelines of a run writes files only below
`cur_backup_path`: the current copy's size becomes some `s`; every other
copy is untouched. -/
def localfs_run_sinks (st : List (String × Nat)) (cur : String) (s : Nat) :
    List (String × Nat) :=
  st.map (fun p => if p.1 = cur then (p.1, s) else p)

/-- Embeds `LocalfsBackupBackend.rollback`:
`shutil.rmtree(self.cur_backup_path, ignore_errors=True)`, removing
exactly the current copy directory. -/
def localfs_rollback (st : List (String × Nat)) (cur : String) :
    List (String × Nat) :=
  st.filter (fun p => ! decide (p.1 = cur))

/-- C3: a failed run (open succeeded, some later step failed after sinking
`s` bytes into the current copy) rolls back to exactly the usage state
observed before the run, because the fresh prefix is not among the
pre-existing copies. -/
theorem rollback_restores_usage (before : List (String × Nat))
    (cur : String) (s : Nat) (hfresh : cur ∉ before.map Prod.fst) :
    localfs_rollback (localfs_run_sinks (localfs_open before cur) cur s) cur
      = before := by
  unfold localfs_open localfs_run_sinks localfs_rollback
  rw [List.map_append, List.filter_append]
  have h1 : before.map (fun p => if p.1 = cur then (p.1, s) else p) = before := by
    induction before with
    | nil => rfl
    | cons p rest ih =>
      have hp : p.1 ≠ cur := by
        intro h
        exact hfresh (by simp [← h])
      have hrest : cur ∉ rest.map Prod.fst := by
        intro h
        exact hfresh (by simp [h])
      simp only [List.map_cons, if_neg hp, ih hrest]
  rw [h1]
  have h2 : before.filter (fun p => ! decide (p.1 = cur)) = before := by
    rw [List.filter_eq_self]
    intro p hp
    have : p.1 ≠ cur := by
      intro h
      exact hfresh (h ▸ List.mem_map_of_mem Prod.fst hp)
    simp [this]
  rw [h2]
  simp

/-- Concrete instance of the rollback theorem: one pre-existing copy `a`,
failed run with fresh prefix `b` that sank 9 bytes. -/
theorem rollback_restores_usage_witness :
    "b" ∉ ([("a", 3)] : List (String × Nat)).map Prod.fst ∧
    localfs_rollback (localfs_run_sinks (localfs_open [("a", 3)] "b") "b" 9) "b"
      = [("a", 3)] :=
  ⟨by decide, rollback_restores_usage [("a", 3)] "b" 9 (by decide)⟩

/-! ## Backend lifecycle (`BackupBackend.open` context manager) -/

/-- Lifecycle events observable on one run scope of `BackupBackend.open`. -/
inductive LifecycleEv where
  | rotate
  | rollback
  | close
deriving DecidableEq, Repr

/-- Trace semantics of the `try / except / finally` in `BackupBackend.open`:
the body (the `yield` scope in which all objects are sunk) may raise, and
`self.rotate(ctx)` — still inside the `try` — may raise; `rollback` never
raises in the shipped backends (`ignore_errors=True`).  Returns the event
trace and whether the run re-raised. -/
def openTrace (bodyRaises rotateRaises : Bool) : List LifecycleEv × Bool :=
  if bodyRaises then ([.rollback, .close], true)
  else if rotateRaises then ([.rotate, .rollback, .close], true)
  else ([.rotate, .close], false)

/-- C5 counterexample: in the execution where the body succeeds but
`rotate` itself fails, both `rotate` and `rollback` run before `close`, so
it is not the case that every failing execution runs exactly one of them. -/
theorem lifecycle_exactly_one_counterexample :
    ¬ (∀ bodyRaises rotateRaises : Bool,
        (openTrace bodyRaises rotateRaises).2 = true →
        (LifecycleEv.rotate ∈ (openTrace bodyRaises rotateRaises).1 ↔
         LifecycleEv.rollback ∉ (openTrace bodyRaises rotateRaises).1)) := by
  decide

/-- C5 amended: `close` runs on every exit path; on every failing
execution `rollback` runs exactly once (and never on success); `rotate`
runs exactly when the body did not fail — so when a step before `rotate`
fails, exactly one of rotate/rollback runs, but when `rotate` itself
fails, both run before `close`. -/
theorem lifecycle_close_and_cleanup (bodyRaises rotateRaises : Bool) :
    LifecycleEv.close ∈ (openTrace bodyRaises rotateRaises).1 ∧
    (openTrace bodyRaises rotateRaises).1.count LifecycleEv.rollback =
      (if bodyRaises || rotateRaises then 1 else 0) ∧
    (openTrace bodyRaises rotateRaises).1.count LifecycleEv.rotate =
      (if bodyRaises then 0 else 1) ∧
    (openTrace bodyRaises rotateRaises).2 = (bodyRaises || rotateRaises) := by
  cases bodyRaises <;> cases rotateRaises <;> decide

/-! ## Exit-code predicate grammar (`Exec.parse_ec`)

The two regexes `EC_INC_RANGE = ([0-9]+)\s*-\s*([0-9]+)` and
`EC_RANGE = (<|<=|>|>=|==)?\s*([0-9]+)` are applied with `re.match`
(anchored at the start only).  Both are embedded as deterministic
maximal-munch parsers over the character list, which coincides with the
backtracking regex semantics here because the digit, space and operator
character classes are pairwise disjoint. -/

/-- Python `range(start, stop)`: a half-open integer interval. -/
structure EcRange where
  start : Nat
  stop : Nat
deriving DecidableEq, Repr

/-- Embeds `Exec.test_ec`: membership of an exit code in the accepted range. -/
def test_ec (r : EcRange) (c : Nat) : Bool :=
  decide (r.start ≤ c) && decide (c < r.stop)

/-- Character class `[0-9]`. -/
def isDigitCh (c : Char) : Bool :=
  decide (48 ≤ c.toNat) && decide (c.toNat ≤ 57)

/-- Character class `\s` (space, tab, newline, carriage return, vertical
tab, form feed). -/
def isSpaceCh (c : Char) : Bool :=
  decide (c.toNat = 32) || decide (c.toNat = 9) || decide (c.toNat = 10) ||
  decide (c.toNat = 13) || decide (c.toNat = 11) || decide (c.toNat = 12)

/-- Numeric value of a digit character. -/
def digitVal (c : Char) : Nat := c.toNat - 48

/-- Greedy `[0-9]+`: the longest digit prefix (failing when empty) with
its decimal value, and the rest of the input. -/
def parseDigits (cs : List Char) : Option (Nat × List Char) :=
  if cs.takeWhile isDigitCh = [] then none
  else some ((cs.takeWhile isDigitCh).foldl (fun a c => a * 10 + digitVal c) 0,
    cs.dropWhile isDigitCh)

/-- Greedy `\s*`. -/
def dropSpaces (cs : List Char) : List Char := cs.dropWhile isSpaceCh

/-- Literal token match, returning the rest of the input. -/
def matchTok : List Char → List Char → Option (List Char)
  | [], cs => some cs
  | _ :: _, [] => none
  | t :: ts, c :: cs => if c = t then matchTok ts cs else none

/-- Embeds `str.strip()`. -/
def stripChars (cs : List Char) : List Char :=
  ((cs.dropWhile isSpaceCh).reverse.dropWhile isSpaceCh).reverse

/-- Prefix match of `EC_INC_RANGE`: the two captured numbers. -/
def matchIncRange (cs : List Char) : Option (Nat × Nat) :=
  match parseDigits cs with
  | none => none
  | some (a, cs1) =>
    match matchTok ['-'] (dropSpaces cs1) with
    | none => none
    | some cs2 =>
      match parseDigits (dropSpaces cs2) with
      | none => none
      | some (b, _) => some (a, b)

/-- The operator captured by `EC_RANGE`'s group 1 (`==` also stands for
the absent group, as in the source's `op = str(m[1]) if m[1] else "=="`). -/
inductive EcOp where
  | lt
  | le
  | gt
  | ge
  | eq
deriving DecidableEq, Repr

/-- One alternative of `EC_RANGE`: a fixed operator token, `\s*`, then
`[0-9]+`. -/
def matchOpNum (op : List Char) (cs : List Char) : Option Nat :=
  match matchTok op cs with
  | none => none
  | some cs1 =>
    match parseDigits (dropSpaces cs1) with
    | none => none
    | some (n, _) => some n

/-- Prefix match of `EC_RANGE`, trying the alternation
`<|<=|>|>=|==` in order with backtracking, then the empty group. -/
def matchEcRange (cs : List Char) : Option (EcOp × Nat) :=
  match matchOpNum ['<'] cs with
  | some n => some (.lt, n)
  | none =>
  match matchOpNum ['<', '='] cs with
  | some n => some (.le, n)
  | none =>
  match matchOpNum ['>'] cs with
  | some n => some (.gt, n)
  | none =>
  match matchOpNum ['>', '='] cs with
  | some n => some (.ge, n)
  | none =>
  match matchOpNum ['=', '='] cs with
  | some n => some (.eq, n)
  | none =>
  match matchOpNum [] cs with
  | some n => some (.eq, n)
  | none => none

/-- Embeds `Exec.parse_ec`.  `none` models a raised `ValueError`.
Only the `A - B` branch checks the constructed range for emptiness
(`len(ret) == 0`); the operator branch returns whatever range the
operator yields. -/
def parse_ec (cs : List Char) : Option EcRange :=
  let x := stripChars cs
  match matchIncRange x with
  | some (a, b) => if b < a then none else some ⟨a, b + 1⟩
  | none =>
    match matchEcRange x with
    | some (op, n) =>
      match op with
      | .eq => some ⟨n, n + 1⟩
      | .lt => some ⟨0, n⟩
      | .le => some ⟨0, n + 1⟩
      | .gt => some ⟨n + 1, 256⟩
      | .ge => some ⟨n, 256⟩
    | none => none

/-- C4 counterexample: `"<0"` is not rejected at parse time; it parses to
the empty range `range(0, 0)`, which accepts no exit code at all. -/
theorem parse_ec_lt_zero_not_rejected :
    parse_ec ['<', '0'] = some ⟨0, 0⟩ ∧
    parse_ec ['<', '0'] ≠ none ∧
    (∀ c : Nat, c < 256 → test_ec ⟨0, 0⟩ c = false) := by
  refine ⟨by decide, by decide, ?_⟩
  intro c _
  simp [test_ec]

/-! ### Canonical renderings of the exit-code grammar -/

/-- Decimal digit character for `d` (any `d ≥ 9` yields the digit 9). -/
def digitChar (d : Nat) : Char :=
  if d = 0 then '0' else if d = 1 then '1' else if d = 2 then '2'
  else if d = 3 then '3' else if d = 4 then '4' else if d = 5 then '5'
  else if d = 6 then '6' else if d = 7 then '7' else if d = 8 then '8'
  else '9'

/-- Canonical decimal rendering of a natural number. -/
def renderDigits (n : Nat) : List Char :=
  if h : n < 10 then [digitChar n]
  else renderDigits (n / 10) ++ [digitChar (n % 10)]
decreasing_by
  exact Nat.div_lt_self (by omega) (by omega)

theorem digitChar_isDigit (d : Nat) : isDigitCh (digitChar d) = true := by
  unfold digitChar
  split_ifs <;> decide

theorem digitChar_val (d : Nat) (h : d < 10) : digitVal (digitChar d) = d := by
  interval_cases d <;> decide

theorem renderDigits_ne_nil (n : Nat) : renderDigits n ≠ [] := by
  rw [renderDigits]
  split_ifs <;> simp

theorem renderDigits_digits (n : Nat) :
    ∀ c ∈ renderDigits n, isDigitCh c = true := by
  induction n using Nat.strong_induction_on with
  | _ n ih =>
    rw [renderDigits]
    split_ifs with h
    · intro c hc
      rw [List.mem_singleton] at hc
      subst hc
      exact digitChar_isDigit n
    · intro c hc
      rcases List.mem_append.mp hc with h1 | h1
      · exact ih (n / 10) (Nat.div_lt_self (by omega) (by omega)) c h1
      · rw [List.mem_singleton] at h1
        subst h1
        exact digitChar_isDigit _

theorem foldl_renderDigits (n : Nat) : ∀ a : Nat,
    (renderDigits n).foldl (fun a c => a * 10 + digitVal c) a =
      a * 10 ^ (renderDigits n).length + n := by
  induction n using Nat.strong_induction_on with
  | _ n ih =>
    intro a
    rw [renderDigits]
    split_ifs with h
    · simp only [List.foldl_cons, List.foldl_nil, List.length_singleton,
        pow_one]
      rw [digitChar_val n h]
    · rw [List.foldl_append, ih (n / 10) (Nat.div_lt_self (by omega) (by omega)) a]
      simp only [List.foldl_cons, List.foldl_nil, List.length_append,
        List.length_singleton]
      rw [digitChar_val (n % 10) (Nat.mod_lt _ (by omega)), pow_succ]
      calc (a * 10 ^ (renderDigits (n / 10)).length + n / 10) * 10 + n % 10
          = a * (10 ^ (renderDigits (n / 10)).length * 10) +
              (n / 10 * 10 + n % 10) := by ring
        _ = a * (10 ^ (renderDigits (n / 10)).length * 10) + n := by
              congr 1
              omega

theorem takeWhile_append_all {p : Char → Bool} :
    ∀ (xs ys : List Char), (∀ c ∈ xs, p c = true) →
    (∀ c, ys.head? = some c → p c = false) →
    (xs ++ ys).takeWhile p = xs ∧ (xs ++ ys).dropWhile p = ys := by
  intro xs
  induction xs with
  | nil =>
    intro ys _ hy
    cases ys with
    | nil => exact ⟨rfl, rfl⟩
    | cons c cs =>
      have hc := hy c rfl
      exact ⟨by simp [List.takeWhile_cons, hc], by simp [List.dropWhile_cons, hc]⟩
  | cons x xs ih =>
    intro ys hx hy
    have hpx : p x = true := hx x (List.mem_cons_self _ _)
    obtain ⟨h1, h2⟩ := ih ys (fun c hc => hx c (List.mem_cons_of_mem _ hc)) hy
    exact ⟨by simp [List.takeWhile_cons, hpx, h1],
      by simp [List.dropWhile_cons, hpx, h2]⟩

theorem parseDigits_render (n : Nat) (rest : List Char)
    (hrest : ∀ c, rest.head? = some c → isDigitCh c = false) :
    parseDigits (renderDigits n ++ rest) = some (n, rest) := by
  obtain ⟨h1, h2⟩ :=
    takeWhile_append_all (renderDigits n) rest (renderDigits_digits n) hrest
  rw [parseDigits, if_neg (by rw [h1]; exact renderDigits_ne_nil n), h1, h2,
    foldl_renderDigits]
  simp

theorem parseDigits_none (c : Char) (cs : List Char) (h : isDigitCh c = false) :
    parseDigits (c :: cs) = none := by
  simp [parseDigits, List.takeWhile_cons, h]

theorem dropSpaces_cons_false (c : Char) (cs : List Char)
    (h : isSpaceCh c = false) : dropSpaces (c :: cs) = c :: cs := by
  simp [dropSpaces, List.dropWhile_cons, h]

theorem digit_not_space (c : Char) (h : isDigitCh c = true) :
    isSpaceCh c = false := by
  simp only [isDigitCh, Bool.and_eq_true, decide_eq_true_eq] at h
  simp only [isSpaceCh, Bool.or_eq_false_iff, decide_eq_false_iff_not]
  omega

theorem digit_ne (c : Char) (h : isDigitCh c = true) :
    c ≠ '<' ∧ c ≠ '>' ∧ c ≠ '=' ∧ c ≠ '-' := by
  simp only [isDigitCh, Bool.and_eq_true, decide_eq_true_eq] at h
  refine ⟨?_, ?_, ?_, ?_⟩ <;> intro he <;> subst he <;> revert h <;> decide

theorem dropWhile_head_false {p : Char → Bool} (cs : List Char)
    (h : ∀ c, cs.head? = some c → p c = false) : cs.dropWhile p = cs := by
  cases cs with
  | nil => rfl
  | cons c cs' => simp [List.dropWhile_cons, h c rfl]

theorem stripChars_eq_self (cs : List Char)
    (h1 : ∀ c, cs.head? = some c → isSpaceCh c = false)
    (h2 : ∀ c, cs.getLast? = some c → isSpaceCh c = false) :
    stripChars cs = cs := by
  unfold stripChars
  rw [dropWhile_head_false cs h1]
  rw [dropWhile_head_false cs.reverse
    (fun c hc => h2 c (by rwa [List.head?_reverse] at hc))]
  exact List.reverse_reverse cs

theorem renderDigits_head_digit (n : Nat) :
    ∀ c, (renderDigits n).head? = some c → isDigitCh c = true := fun c hc =>
  renderDigits_digits n c (List.mem_of_mem_head? (Option.mem_def.mpr hc))

/-- Any input of shape `xs ++ renderDigits k` with a non-space head is
left unchanged by `str.strip()`. -/
theorem stripChars_digits_tail (xs : List Char) (k : Nat)
    (hhead : ∀ c, (xs ++ renderDigits k).head? = some c → isSpaceCh c = false) :
    stripChars (xs ++ renderDigits k) = xs ++ renderDigits k := by
  refine stripChars_eq_self _ hhead ?_
  intro c hc
  rw [List.getLast?_append] at hc
  cases hrd : (renderDigits k).getLast? with
  | none =>
    exact absurd (List.getLast?_eq_none_iff.mp hrd) (renderDigits_ne_nil k)
  | some d =>
    rw [hrd, Option.or_some] at hc
    injection hc with hdc
    subst hdc
    exact digit_not_space d (renderDigits_digits k d
      (List.mem_of_mem_getLast? (Option.mem_def.mpr hrd)))

/-- Abstract form of the exit-code predicate grammar. -/
inductive EcExpr where
  | exact (n : Nat)
  | incRange (a b : Nat)
  | lt (n : Nat)
  | le (n : Nat)
  | gt (n : Nat)
  | ge (n : Nat)

/-- Canonical rendering of a grammar form (`"N"`, `"A - B"`, `"<N"`,
`"<=N"`, `">N"`, `">=N"`). -/
def renderEc : EcExpr → List Char
  | .exact n => renderDigits n
  | .incRange a b => renderDigits a ++ [' ', '-', ' '] ++ renderDigits b
  | .lt n => ['<'] ++ renderDigits n
  | .le n => ['<', '='] ++ renderDigits n
  | .gt n => ['>'] ++ renderDigits n
  | .ge n => ['>', '='] ++ renderDigits n

/-- The predicate each grammar form actually denotes in the code: `A - B`
is rejected when empty; the operator forms are never rejected, `"<N"`
giving the (possibly empty) range `[0, N)`. -/
def ecSem : EcExpr → Option EcRange
  | .exact n => some ⟨n, n + 1⟩
  | .incRange a b => if b < a then none else some ⟨a, b + 1⟩
  | .lt n => some ⟨0, n⟩
  | .le n => some ⟨0, n + 1⟩
  | .gt n => some ⟨n + 1, 256⟩
  | .ge n => some ⟨n, 256⟩

theorem matchOpNum_fail_head (t : Char) (ts : List Char) (cs : List Char)
    (h : ∀ c, cs.head? = some c → c ≠ t) : matchOpNum (t :: ts) cs = none := by
  cases cs with
  | nil => rfl
  | cons c cs' => simp [matchOpNum, matchTok, h c rfl]

theorem dropSpaces_render (n : Nat) :
    dropSpaces (renderDigits n) = renderDigits n :=
  dropWhile_head_false _
    (fun c hc => digit_not_space c (renderDigits_head_digit n c hc))

theorem parseDigits_render_nil (n : Nat) :
    parseDigits (renderDigits n) = some (n, []) := by
  have := parseDigits_render n [] (by intro c hc; cases hc)
  simpa using this

theorem head_of_append_render (a : Nat) (ys : List Char) :
    ∀ c, (renderDigits a ++ ys).head? = some c → isDigitCh c = true := by
  intro c hc
  rw [List.head?_append] at hc
  cases hrd : (renderDigits a).head? with
  | none => exact absurd (List.head?_eq_none_iff.mp hrd) (renderDigits_ne_nil a)
  | some d =>
    rw [hrd, Option.or_some] at hc
    injection hc with hdc
    subst hdc
    exact renderDigits_head_digit a d hrd

theorem matchEcRange_render_eq (n : Nat) :
    matchEcRange (renderDigits n) = some (.eq, n) := by
  have hd := renderDigits_head_digit n
  have h1 : matchOpNum ['<'] (renderDigits n) = none :=
    matchOpNum_fail_head '<' [] _ (fun c hc => (digit_ne c (hd c hc)).1)
  have h2 : matchOpNum ['<', '='] (renderDigits n) = none :=
    matchOpNum_fail_head '<' ['='] _ (fun c hc => (digit_ne c (hd c hc)).1)
  have h3 : matchOpNum ['>'] (renderDigits n) = none :=
    matchOpNum_fail_head '>' [] _ (fun c hc => (digit_ne c (hd c hc)).2.1)
  have h4 : matchOpNum ['>', '='] (renderDigits n) = none :=
    matchOpNum_fail_head '>' ['='] _ (fun c hc => (digit_ne c (hd c hc)).2.1)
  have h5 : matchOpNum ['=', '='] (renderDigits n) = none :=
    matchOpNum_fail_head '=' ['='] _ (fun c hc => (digit_ne c (hd c hc)).2.2.1)
  have h6 : matchOpNum [] (renderDigits n) = some n := by
    simp [matchOpNum, matchTok, dropSpaces_render, parseDigits_render_nil]
  simp only [matchEcRange, h1, h2, h3, h4, h5, h6]

theorem matchIncRange_render_single (n : Nat) :
    matchIncRange (renderDigits n) = none := by
  simp [matchIncRange, parseDigits_render_nil, dropSpaces, matchTok]

theorem stripChars_render (n : Nat) :
    stripChars (renderDigits n) = renderDigits n := by
  have := stripChars_digits_tail [] n (by
    intro c hc
    rw [List.nil_append] at hc
    exact digit_not_space c (renderDigits_head_digit n c hc))
  simpa using this

theorem parse_ec_render_exact (n : Nat) :
    parse_ec (renderDigits n) = some ⟨n, n + 1⟩ := by
  simp only [parse_ec, stripChars_render, matchIncRange_render_single,
    matchEcRange_render_eq]

theorem parse_ec_render_lt (n : Nat) :
    parse_ec (['<'] ++ renderDigits n) = some ⟨0, n⟩ := by
  have hstrip : stripChars (['<'] ++ renderDigits n) = ['<'] ++ renderDigits n :=
    stripChars_digits_tail ['<'] n (by
      intro c hc
      injection hc with h
      subst h
      decide)
  have hinc : matchIncRange (['<'] ++ renderDigits n) = none := by
    simp [matchIncRange, parseDigits_none '<' _ (by decide)]
  have hop : matchOpNum ['<'] (['<'] ++ renderDigits n) = some n := by
    simp [matchOpNum, matchTok, dropSpaces_render, parseDigits_render_nil]
  have hec : matchEcRange (['<'] ++ renderDigits n) = some (.lt, n) := by
    simp only [matchEcRange, hop]
  simp only [parse_ec, hstrip, hinc, hec]

theorem parse_ec_render_le (n : Nat) :
    parse_ec (['<', '='] ++ renderDigits n) = some ⟨0, n + 1⟩ := by
  have hstrip : stripChars (['<', '='] ++ renderDigits n) =
      ['<', '='] ++ renderDigits n :=
    stripChars_digits_tail ['<', '='] n (by
      intro c hc
      injection hc with h
      subst h
      decide)
  have hinc : matchIncRange (['<', '='] ++ renderDigits n) = none := by
    simp [matchIncRange, parseDigits_none '<' _ (by decide)]
  have h1 : matchOpNum ['<'] (['<', '='] ++ renderDigits n) = none := by
    simp [matchOpNum, matchTok, dropSpaces_cons_false '=' _ (by decide),
      parseDigits_none '=' _ (by decide)]
  have h2 : matchOpNum ['<', '='] (['<', '='] ++ renderDigits n) = some n := by
    simp [matchOpNum, matchTok, dropSpaces_render, parseDigits_render_nil]
  have hec : matchEcRange (['<', '='] ++ renderDigits n) = some (.le, n) := by
    simp only [matchEcRange, h1, h2]
  simp only [parse_ec, hstrip, hinc, hec]

theorem parse_ec_render_gt (n : Nat) :
    parse_ec (['>'] ++ renderDigits n) = some ⟨n + 1, 256⟩ := by
  have hstrip : stripChars (['>'] ++ renderDigits n) = ['>'] ++ renderDigits n :=
    stripChars_digits_tail ['>'] n (by
      intro c hc
      injection hc with h
      subst h
      decide)
  have hinc : matchIncRange (['>'] ++ renderDigits n) = none := by
    simp [matchIncRange, parseDigits_none '>' _ (by decide)]
  have h1 : matchOpNum ['<'] (['>'] ++ renderDigits n) = none := by
    simp [matchOpNum, matchTok]
  have h2 : matchOpNum ['<', '='] (['>'] ++ renderDigits n) = none := by
    simp [matchOpNum, matchTok]
  have h3 : matchOpNum ['>'] (['>'] ++ renderDigits n) = some n := by
    simp [matchOpNum, matchTok, dropSpaces_render, parseDigits_render_nil]
  have hec : matchEcRange (['>'] ++ renderDigits n) = some (.gt, n) := by
    simp only [matchEcRange, h1, h2, h3]
  simp only [parse_ec, hstrip, hinc, hec]

theorem parse_ec_render_ge (n : Nat) :
    parse_ec (['>', '='] ++ renderDigits n) = some ⟨n, 256⟩ := by
  have hstrip : stripChars (['>', '='] ++ renderDigits n) =
      ['>', '='] ++ renderDigits n :=
    stripChars_digits_tail ['>', '='] n (by
      intro c hc
      injection hc with h
      subst h
      decide)
  have hinc : matchIncRange (['>', '='] ++ renderDigits n) = none := by
    simp [matchIncRange, parseDigits_none '>' _ (by decide)]
  have h1 : matchOpNum ['<'] (['>', '='] ++ renderDigits n) = none := by
    simp [matchOpNum, matchTok]
  have h2 : matchOpNum ['<', '='] (['>', '='] ++ renderDigits n) = none := by
    simp [matchOpNum, matchTok]
  have h3 : matchOpNum ['>'] (['>', '='] ++ renderDigits n) = none := by
    simp [matchOpNum, matchTok, dropSpaces_cons_false '=' _ (by decide),
      parseDigits_none '=' _ (by decide)]
  have h4 : matchOpNum ['>', '='] (['>', '='] ++ renderDigits n) = some n := by
    simp [matchOpNum, matchTok, dropSpaces_render, parseDigits_render_nil]
  have hec : matchEcRange (['>', '='] ++ renderDigits n) = some (.ge, n) := by
    simp only [matchEcRange, h1, h2, h3, h4]
  simp only [parse_ec, hstrip, hinc, hec]

theorem parse_ec_render_incRange (a b : Nat) :
    parse_ec (renderDigits a ++ [' ', '-', ' '] ++ renderDigits b) =
      if b < a then none else some ⟨a, b + 1⟩ := by
  rw [List.append_assoc]
  have hstrip : stripChars (renderDigits a ++ ([' ', '-', ' '] ++ renderDigits b))
      = renderDigits a ++ ([' ', '-', ' '] ++ renderDigits b) := by
    rw [← List.append_assoc]
    exact stripChars_digits_tail _ b (by
      intro c hc
      rw [List.append_assoc] at hc
      exact digit_not_space c (head_of_append_render a _ c hc))
  have hsp : isSpaceCh ' ' = true := by decide
  have hdash : isSpaceCh '-' = false := by decide
  have e1 := parseDigits_render a ([' ', '-', ' '] ++ renderDigits b) (by
    intro c hc
    injection hc with h
    subst h
    decide)
  simp only [List.cons_append, List.nil_append] at e1
  have e4 : List.dropWhile isSpaceCh (renderDigits b) = renderDigits b :=
    dropSpaces_render b
  have hminc : matchIncRange (renderDigits a ++ ([' ', '-', ' '] ++ renderDigits b))
      = some (a, b) := by
    simp [matchIncRange, e1, dropSpaces, List.dropWhile_cons, hsp, hdash,
      matchTok, e4, parseDigits_render_nil]
  simp only [parse_ec, hstrip, hminc]

/-- C4 amended: the exit-code grammar is parsed as stated except that only
the `A - B` form is rejected when empty; `"N"` accepts exactly N,
`"A - B"` yields the inclusive range `[A, B]` and raises when `B < A`,
and the operator forms yield the obvious half-open range over `[0, 256)`
with no parse-time emptiness rejection (`"<0"` parses to the empty
predicate that accepts no exit code). -/
theorem parse_ec_grammar (e : EcExpr) : parse_ec (renderEc e) = ecSem e := by
  cases e with
  | exact n => exact parse_ec_render_exact n
  | incRange a b => exact parse_ec_render_incRange a b
  | lt n => exact parse_ec_render_lt n
  | le n => exact parse_ec_render_le n
  | gt n => exact parse_ec_render_gt n
  | ge n => exact parse_ec_render_ge n

/-! ## Dependency resolver (`DepResolv`)

Python `dict`s keyed by objects are embedded as association lists keyed by
the unique object path / group id, and Python `set`s as member lists (only
membership matters to the claims). -/

/-- Generic association-list lookup (`d[k]` yielding `none` for a
`KeyError`). -/
def alookup {β : Type} (mp : List (String × β)) (k : String) : Option β :=
  (mp.find? (fun e => decide (e.1 = k))).map Prod.snd

/-- Embeds `del d[k]`. -/
def aerase {β : Type} (mp : List (String × β)) (k : String) :
    List (String × β) :=
  mp.filter (fun e => ! decide (e.1 = k))

/-- Embeds `d[k] = v` for a key already present. -/
def aset {β : Type} (mp : List (String × β)) (k : String) (v : β) :
    List (String × β) :=
  mp.map (fun e => if e.1 = k then (k, v) else e)

/-- Python set union: append the members not already present. -/
def unionL (a b : List String) : List String :=
  a ++ b.filter (fun x => ! decide (x ∈ a))

/-- Embeds `BackupObjectGroup`: member object paths and the ids of the groups it
depends on. -/
structure OG where
  objects : List String
  depends : List String
deriving DecidableEq, Repr

/-- The `og_map` passed to `DepResolv.build`, in iteration order. -/
abbrev OgMap := List (String × OG)

/-- Errors raised while building the dependency tree. -/
inductive BuildErr where
  | circular
  | missingGroup
  | fuel
deriving DecidableEq, Repr

/-- The `dive` DFS of `DepResolv.build`, applied in sequence to a list of
group ids (the caller's `for dep_og in og.depends` loop and the recursion
over `og.depends` thread the same `obj_set` and `recurse_path`, which is
never popped).  `.error .circular` models
`RecursionError("Circular reference detected ...")`. -/
def diveMany (m : OgMap) : Nat → List String → List String → List String →
    Except BuildErr (List String × List String)
  | 0, _, _, _ => .error .fuel
  | _ + 1, [], objSet, path => .ok (objSet, path)
  | fuel + 1, gid :: rest, objSet, path =>
    if gid ∈ path then .error .circular
    else
      match alookup m gid with
      | none => .error .missingGroup
      | some og =>
        match diveMany m fuel og.depends (unionL objSet og.objects)
            (path ++ [gid]) with
        | .error e => .error e
        | .ok (objSet2, path2) => diveMany m fuel rest objSet2 path2

/-- Embeds the three components of `DepResolv`. -/
structure DepState where
  obj_dep_map : List (String × List String)
  dep_obj_map : List (String × List String)
  avail_q : List String
deriving DecidableEq, Repr

/-- The `if obj in map: s = map[obj] else: s = map[obj] = set(); s.update(vs)`
idiom of `DepResolv.build`. -/
def mapUnion (mp : List (String × List String)) (k : String)
    (vs : List String) : List (String × List String) :=
  match alookup mp k with
  | some s => aset mp k (unionL s vs)
  | none => mp ++ [(k, unionL [] vs)]

/-- Fuel that covers every call of the never-popping DFS: at most
`|og_map| + 1` groups enter `recurse_path`, so the sequential call chain is
shorter than `2|og_map| + 8`. -/
def buildFuel (m : OgMap) : Nat := 2 * m.length + 8

/-- The group loop of `DepResolv.build`. -/
def buildLoop (m : OgMap) : List (String × OG) → DepState →
    Except BuildErr DepState
  | [], st => .ok st
  | (_, og) :: rest, st =>
    if og.depends = [] then
      buildLoop m rest { st with avail_q := st.avail_q ++ og.objects }
    else
      match diveMany m (buildFuel m) og.depends [] [] with
      | .error e => .error e
      | .ok (dep_objs, _) =>
        buildLoop m rest {
          obj_dep_map := og.objects.foldl
            (fun mp obj => mapUnion mp obj dep_objs) st.obj_dep_map,
          dep_obj_map := dep_objs.foldl
            (fun mp p => mapUnion mp p og.objects) st.dep_obj_map,
          avail_q := st.avail_q }

/-- Embeds `DepResolv.build`. -/
def build (m : OgMap) : Except BuildErr DepState :=
  buildLoop m m ⟨[], [], []⟩

/-- The set of objects an object still waits for (`obj_dep_map[o]`,
empty when absent). -/
def entryOf (st : DepState) (o : String) : List String :=
  (alookup st.obj_dep_map o).getD []

/-- The body of `mark_fulfilled`'s `for dep in dep_s` loop, for one
dependent: remove `obj` from `obj_dep_map[dep]` (a `KeyError`, modelled as
`none`, if the key or the member is missing) and, when the entry empties,
drop it and append the dependent to `avail_q`. -/
def mfStep (obj : String) (st : DepState) (dep : String) : Option DepState :=
  match alookup st.obj_dep_map dep with
  | none => none
  | some objS =>
    if obj ∈ objS then
      if objS.erase obj = [] then
        some { st with obj_dep_map := aerase st.obj_dep_map dep,
                       avail_q := st.avail_q ++ [dep] }
      else
        some { st with obj_dep_map := aset st.obj_dep_map dep (objS.erase obj) }
    else none

def mfLoop (obj : String) : List String → DepState → Option DepState
  | [], st => some st
  | d :: rest, st =>
    match mfStep obj st d with
    | none => none
    | some st' => mfLoop obj rest st'

/-- Embeds `DepResolv.mark_fulfilled`. -/
def mark_fulfilled (st : DepState) (obj : String) : Option DepState :=
  match alookup st.dep_obj_map obj with
  | none => some st
  | some depS =>
    mfLoop obj depS { st with dep_obj_map := aerase st.dep_obj_map obj }

/-- A sequence of `mark_fulfilled` calls, as issued by `BackupTask.run`
when it reaps completed objects. -/
def runMarks : DepState → List String → Option DepState
  | st, [] => some st
  | st, o :: os =>
    match mark_fulfilled st o with
    | none => none
    | some st' => runMarks st' os

/-- Bounded reachability along `depends` edges (one or more steps). -/
def reachesB (m : OgMap) : Nat → String → String → Bool
  | 0, _, _ => false
  | fuel + 1, src, dst =>
    match alookup m src with
    | none => false
    | some og =>
      og.depends.any (fun g => decide (g = dst) || reachesB m fuel g dst)

/-- Whether the group map's `depends` relation has a cycle. -/
def hasCycle (m : OgMap) : Bool :=
  m.any (fun e => reachesB m (m.length + 1) e.1 e.1)

/-- The diamond: `a` depends on `b` and `c`, which both depend on `d`. -/
def diamondMap : OgMap :=
  [("a", ⟨["oa"], ["b", "c"]⟩), ("b", ⟨["ob"], ["d"]⟩),
   ("c", ⟨["oc"], ["d"]⟩), ("d", ⟨["od"], []⟩)]

/-- C6: the acyclic diamond group map is rejected by `DepResolv.build`
with the circular-reference error, because `recurse_path` is a visited
set that is never popped, while a genuinely cyclic map (`a <-> b`) is
rejected with the same error.  The claim's "acyclic implies builds"
direction is false of the code. -/
theorem diamond_raises_circular :
    build diamondMap = .error .circular ∧
    hasCycle diamondMap = false ∧
    build [("a", ⟨["oa"], ["b"]⟩), ("b", ⟨["ob"], ["a"]⟩)] = .error .circular ∧
    hasCycle [("a", ⟨["oa"], ["b"]⟩), ("b", ⟨["ob"], ["a"]⟩)] = true := by
  refine ⟨rfl, by decide, rfl, by decide⟩

theorem alookup_cons {β : Type} (e : String × β) (rest : List (String × β))
    (k : String) :
    alookup (e :: rest) k = if e.1 = k then some e.2 else alookup rest k := by
  by_cases h : e.1 = k
  · rw [if_pos h]
    unfold alookup
    rw [List.find?_cons_of_pos _ (by simp [h])]
    rfl
  · rw [if_neg h]
    unfold alookup
    rw [List.find?_cons_of_neg _ (by simp [h])]

theorem aerase_cons {β : Type} (e : String × β) (rest : List (String × β))
    (k : String) :
    aerase (e :: rest) k = if e.1 = k then aerase rest k
      else e :: aerase rest k := by
  by_cases h : e.1 = k <;> simp [aerase, List.filter_cons, h]

theorem aset_cons {β : Type} (e : String × β) (rest : List (String × β))
    (k : String) (v : β) :
    aset (e :: rest) k v = (if e.1 = k then (k, v) else e) :: aset rest k v := by
  simp [aset]

theorem alookup_aerase_ne {β : Type} (mp : List (String × β)) (k k' : String)
    (h : k' ≠ k) : alookup (aerase mp k) k' = alookup mp k' := by
  induction mp with
  | nil => rfl
  | cons e rest ih =>
    rw [aerase_cons]
    by_cases he : e.1 = k
    · rw [if_pos he, ih, alookup_cons,
        if_neg (fun hk : e.1 = k' => h (hk ▸ he))]
    · rw [if_neg he, alookup_cons, alookup_cons]
      by_cases he' : e.1 = k' <;> simp [he', ih]

theorem alookup_aset_ne {β : Type} (mp : List (String × β)) (k k' : String)
    (v : β) (h : k' ≠ k) : alookup (aset mp k v) k' = alookup mp k' := by
  induction mp with
  | nil => rfl
  | cons e rest ih =>
    rw [aset_cons]
    by_cases he : e.1 = k
    · rw [if_pos he, alookup_cons, alookup_cons,
        if_neg (show ¬ ((k, v).1 = k') from fun hk => h hk.symm),
        if_neg (fun hk : e.1 = k' => h (hk ▸ he)), ih]
    · rw [if_neg he, alookup_cons, alookup_cons]
      by_cases he' : e.1 = k' <;> simp [he', ih]

theorem alookup_aset_self {β : Type} (mp : List (String × β)) (k : String)
    (v : β) (h : (alookup mp k).isSome = true) :
    alookup (aset mp k v) k = some v := by
  induction mp with
  | nil => simp [alookup] at h
  | cons e rest ih =>
    rw [aset_cons]
    by_cases he : e.1 = k
    · rw [if_pos he, alookup_cons, if_pos rfl]
    · rw [if_neg he, alookup_cons, if_neg he]
      apply ih
      rw [alookup_cons, if_neg he] at h
      exact h

theorem mfStep_eq_some (obj : String) (st : DepState) (d : String)
    (objS : List String) (halk : alookup st.obj_dep_map d = some objS) :
    mfStep obj st d =
      if obj ∈ objS then
        if objS.erase obj = [] then
          some { st with obj_dep_map := aerase st.obj_dep_map d,
                         avail_q := st.avail_q ++ [d] }
        else
          some { st with obj_dep_map := aset st.obj_dep_map d (objS.erase obj) }
      else none := by
  unfold mfStep
  rw [halk]

theorem mfStep_eq_none (obj : String) (st : DepState) (d : String)
    (halk : alookup st.obj_dep_map d = none) : mfStep obj st d = none := by
  unfold mfStep
  rw [halk]

theorem mfStep_preserves (obj d A B : String) (st st' : DepState)
    (h : mfStep obj st d = some st') (hB : B ∈ entryOf st A) (hBo : B ≠ obj)
    (hA : A ∉ st.avail_q) : B ∈ entryOf st' A ∧ A ∉ st'.avail_q := by
  cases halk : alookup st.obj_dep_map d with
  | none => rw [mfStep_eq_none obj st d halk] at h; exact Option.noConfusion h
  | some objS =>
    rw [mfStep_eq_some obj st d objS halk] at h
    by_cases hmem : obj ∈ objS
    · rw [if_pos hmem] at h
      by_cases hemp : objS.erase obj = []
      · rw [if_pos hemp] at h
        injection h with hst
        subst hst
        have hAd : A ≠ d := by
          intro hAd
          subst hAd
          have hBs : B ∈ objS := by
            have he : entryOf st A = objS := by simp [entryOf, halk]
            rwa [he] at hB
          have : B ∈ objS.erase obj := (List.mem_erase_of_ne hBo).mpr hBs
          rw [hemp] at this
          cases this
        constructor
        · simp only [entryOf]
          rw [alookup_aerase_ne _ _ _ hAd]
          exact hB
        · simp only [List.mem_append, List.mem_singleton]
          push_neg
          exact ⟨hA, hAd⟩
      · rw [if_neg hemp] at h
        injection h with hst
        subst hst
        refine ⟨?_, hA⟩
        by_cases hAd : A = d
        · subst hAd
          simp only [entryOf]
          rw [alookup_aset_self _ _ _ (by rw [halk]; rfl)]
          have hBs : B ∈ objS := by
            have he : entryOf st A = objS := by simp [entryOf, halk]
            rwa [he] at hB
          exact (List.mem_erase_of_ne hBo).mpr hBs
        · simp only [entryOf]
          rw [alookup_aset_ne _ _ _ _ hAd]
          exact hB
    · rw [if_neg hmem] at h
      exact Option.noConfusion h

theorem mfLoop_preserves (obj A B : String) (hBo : B ≠ obj) :
    ∀ (deps : List String) (st st' : DepState),
    mfLoop obj deps st = some st' → B ∈ entryOf st A → A ∉ st.avail_q →
    B ∈ entryOf st' A ∧ A ∉ st'.avail_q := by
  intro deps
  induction deps with
  | nil =>
    intro st st' h hB hA
    injection h with h
    subst h
    exact ⟨hB, hA⟩
  | cons d rest ih =>
    intro st st' h hB hA
    rw [mfLoop] at h
    cases hstep : mfStep obj st d with
    | none => rw [hstep] at h; exact Option.noConfusion h
    | some st1 =>
      rw [hstep] at h
      obtain ⟨hB1, hA1⟩ := mfStep_preserves obj d A B st st1 hstep hB hBo hA
      exact ih st1 st' h hB1 hA1

theorem mark_fulfilled_eq_some (st : DepState) (obj : String)
    (depS : List String) (h : alookup st.dep_obj_map obj = some depS) :
    mark_fulfilled st obj =
      mfLoop obj depS { st with dep_obj_map := aerase st.dep_obj_map obj } := by
  unfold mark_fulfilled
  rw [h]

theorem mark_fulfilled_eq_id (st : DepState) (obj : String)
    (h : alookup st.dep_obj_map obj = none) : mark_fulfilled st obj = some st := by
  unfold mark_fulfilled
  rw [h]

theorem mark_fulfilled_preserves (st st' : DepState) (o A B : String)
    (h : mark_fulfilled st o = some st') (hBo : B ≠ o) (hB : B ∈ entryOf st A)
    (hA : A ∉ st.avail_q) : B ∈ entryOf st' A ∧ A ∉ st'.avail_q := by
  cases halk : alookup st.dep_obj_map o with
  | none =>
    rw [mark_fulfilled_eq_id st o halk] at h
    injection h with h
    subst h
    exact ⟨hB, hA⟩
  | some depS =>
    rw [mark_fulfilled_eq_some st o depS halk] at h
    exact mfLoop_preserves o A B hBo depS _ st' h hB hA

theorem runMarks_preserves (A B : String) :
    ∀ (seq : List String) (st st' : DepState),
    runMarks st seq = some st' → B ∉ seq → B ∈ entryOf st A →
    A ∉ st.avail_q → B ∈ entryOf st' A ∧ A ∉ st'.avail_q := by
  intro seq
  induction seq with
  | nil =>
    intro st st' h _ hB hA
    injection h with h
    subst h
    exact ⟨hB, hA⟩
  | cons o os ih =>
    intro st st' h hBn hB hA
    rw [runMarks] at h
    cases hmf : mark_fulfilled st o with
    | none => rw [hmf] at h; exact Option.noConfusion h
    | some st1 =>
      rw [hmf] at h
      have hBo : B ≠ o := fun he => hBn (he ▸ List.mem_cons_self o os)
      obtain ⟨hB1, hA1⟩ := mark_fulfilled_preserves st st1 o A B hmf hBo hB hA
      exact ih st1 st' h (fun hm => hBn (List.mem_cons_of_mem _ hm)) hB1 hA1

/-- The objects of the groups without dependencies, in iteration order:
what `DepResolv.build` moves straight onto `avail_q`. -/
def availOf (gl : List (String × OG)) : List String :=
  gl.foldr (fun e acc => if e.2.depends = [] then e.2.objects ++ acc else acc) []

theorem buildLoop_avail (m : OgMap) :
    ∀ (gl : List (String × OG)) (st st' : DepState),
    buildLoop m gl st = .ok st' → st'.avail_q = st.avail_q ++ availOf gl := by
  intro gl
  induction gl with
  | nil =>
    intro st st' h
    injection h with h
    subst h
    simp [availOf]
  | cons e rest ih =>
    intro st st' h
    obtain ⟨gid, og⟩ := e
    rw [buildLoop] at h
    by_cases hdep : og.depends = []
    · rw [if_pos hdep] at h
      rw [ih _ _ h]
      simp [availOf, hdep]
    · rw [if_neg hdep] at h
      cases hdive : diveMany m (buildFuel m) og.depends [] [] with
      | error er => rw [hdive] at h; exact Except.noConfusion h
      | ok pr =>
        obtain ⟨dobjs, dpath⟩ := pr
        rw [hdive] at h
        rw [ih _ _ h]
        simp [availOf, hdep]

/-- C7: within a task, (a) `DepResolv.build` enqueues exactly the objects
of the dependency-free groups; (b) an object `A` with an outstanding
prerequisite `B` that is not on `avail_q` stays off `avail_q` (and keeps
`B` in its `obj_dep_map` entry) across any sequence of `mark_fulfilled`
calls that does not fulfil `B` — so `A` is never submitted before `B` is
fulfilled; (c) the per-dependent step of `mark_fulfilled` appends a
dependent to `avail_q` exactly when removing the fulfilled object empties
the dependent's `obj_dep_map` entry. -/
theorem dep_ordering (m : OgMap) (st0 : DepState) (hb : build m = .ok st0) :
    st0.avail_q = availOf m ∧
    (∀ A B seq st', B ∈ entryOf st0 A → A ∉ st0.avail_q → B ∉ seq →
      runMarks st0 seq = some st' → B ∈ entryOf st' A ∧ A ∉ st'.avail_q) ∧
    (∀ st obj d st', mfStep obj st d = some st' →
      ((entryOf st d).erase obj = [] → st'.avail_q = st.avail_q ++ [d]) ∧
      ((entryOf st d).erase obj ≠ [] → st'.avail_q = st.avail_q)) := by
  refine ⟨?_, ?_, ?_⟩
  · have := buildLoop_avail m m _ _ hb
    simpa using this
  · intro A B seq st' hB hA hBn hrun
    exact runMarks_preserves A B seq st0 st' hrun hBn hB hA
  · intro st obj d st' h
    cases halk : alookup st.obj_dep_map d with
    | none =>
      rw [mfStep_eq_none obj st d halk] at h
      exact Option.noConfusion h
    | some objS =>
      have he : entryOf st d = objS := by simp [entryOf, halk]
      rw [mfStep_eq_some obj st d objS halk] at h
      by_cases hmem : obj ∈ objS
      · rw [if_pos hmem] at h
        by_cases hemp : objS.erase obj = []
        · rw [if_pos hemp] at h
          injection h with hst
          subst hst
          exact ⟨fun _ => rfl, fun hne => absurd (he ▸ hemp) hne⟩
        · rw [if_neg hemp] at h
          injection h with hst
          subst hst
          refine ⟨fun hf => ?_, fun _ => rfl⟩
          rw [he] at hf
          exact absurd hf hemp
      · rw [if_neg hmem] at h
        exact Option.noConfusion h

/-- Concrete instance of the dependency-ordering theorem: group `g2`
(object `Y`) depends on group `g1` (object `X`). -/
theorem dep_ordering_witness :
    build [("g1", OG.mk ["X"] []), ("g2", OG.mk ["Y"] ["g1"])] =
      .ok ⟨[("Y", ["X"])], [("X", ["Y"])], ["X"]⟩ ∧
    ((⟨[("Y", ["X"])], [("X", ["Y"])], ["X"]⟩ : DepState).avail_q =
        availOf [("g1", OG.mk ["X"] []), ("g2", OG.mk ["Y"] ["g1"])] ∧
     (∀ A B seq st',
        B ∈ entryOf ⟨[("Y", ["X"])], [("X", ["Y"])], ["X"]⟩ A →
        A ∉ (⟨[("Y", ["X"])], [("X", ["Y"])], ["X"]⟩ : DepState).avail_q →
        B ∉ seq →
        runMarks ⟨[("Y", ["X"])], [("X", ["Y"])], ["X"]⟩ seq = some st' →
        B ∈ entryOf st' A ∧ A ∉ st'.avail_q) ∧
     (∀ st obj d st', mfStep obj st d = some st' →
        ((entryOf st d).erase obj = [] → st'.avail_q = st.avail_q ++ [d]) ∧
        ((entryOf st d).erase obj ≠ [] → st'.avail_q = st.avail_q))) :=
  ⟨rfl, dep_ordering [("g1", OG.mk ["X"] []), ("g2", OG.mk ["Y"] ["g1"])]
    ⟨[("Y", ["X"])], [("X", ["Y"])], ["X"]⟩ rfl⟩

/-! ## Configuration merge (`merge_conf`)

A configuration document is embedded by the parts `merge_conf` inspects:
the `execs` and `tasks` arrays (an entry is its id paired with its opaque
remaining content), the optional `boot-report` object, and the remaining
top-level scalar keys. -/

/-- A `boot-report` object: whether `mua` is declared, the `mail-to` list
(`none` when the key is missing, which `merge_conf` would `KeyError` on),
and its remaining fields (subject, header, ...). -/
structure BootRep where
  mua : Option String
  mail_to : Option (List String)
  fields : List (String × String)
deriving DecidableEq, Repr

/-- A configuration document, as far as `merge_conf` is concerned. -/
structure Conf where
  execs : List (String × String)
  tasks : List (String × String)
  boot_report : Option BootRep
  scalars : List (String × String)
deriving DecidableEq, Repr

inductive MergeErr where
  | dupExecs
  | dupTasks
  | muaOverride
  | missingMailTo
deriving DecidableEq, Repr

/-- Right-biased dict union (`a | b` per key). -/
def unionRight (a b : List (String × String)) : List (String × String) :=
  a.filter (fun e => ! decide (e.1 ∈ b.map Prod.fst)) ++ b

/-- Embeds `merge_conf(a, b)`:  duplicate-id checks on `execs` and
`tasks` first; `ret = a | b` (so `b`'s `boot-report` object replaces `a`'s
wholesale); `execs`/`tasks` concatenated; when both sides declare
`boot-report`, `mua` in both is fatal and the result's `mail-to` is set to
the concatenation on `b`'s object. -/
def merge_conf (a b : Conf) : Except MergeErr Conf :=
  if (a.execs.map Prod.fst).inter (b.execs.map Prod.fst) ≠ [] then
    .error .dupExecs
  else if (a.tasks.map Prod.fst).inter (b.tasks.map Prod.fst) ≠ [] then
    .error .dupTasks
  else
    let ret : Conf := {
      execs := a.execs ++ b.execs,
      tasks := a.tasks ++ b.tasks,
      boot_report := match b.boot_report with
        | some x => some x
        | none => a.boot_report,
      scalars := unionRight a.scalars b.scalars }
    match a.boot_report, b.boot_report with
    | some abr, some bbr =>
      if abr.mua.isSome ∧ bbr.mua.isSome then .error .muaOverride
      else
        match abr.mail_to, bbr.mail_to with
        | some am, some bm =>
          .ok { ret with boot_report := some { bbr with mail_to := some (am ++ bm) } }
        | _, _ => .error .missingMailTo
    | _, _ => .ok ret

/-- C8 counterexample: merging `a` whose `boot-report` carries
`mua` and a `subject` field with `b` whose `boot-report` has neither
drops both from the result (`ret = a | b` replaces the whole object with
`b`'s), refuting "a field present only in a's boot-report is preserved". -/
theorem merge_conf_drops_a_only_fields :
    merge_conf
      ⟨[], [], some ⟨some "m", some ["x"], [("subject", "s")]⟩, []⟩
      ⟨[], [], some ⟨none, some ["y"], []⟩, []⟩ =
      .ok ⟨[], [], some ⟨none, some ["x", "y"], []⟩, []⟩ ∧
    (∀ c : Conf, merge_conf
        ⟨[], [], some ⟨some "m", some ["x"], [("subject", "s")]⟩, []⟩
        ⟨[], [], some ⟨none, some ["y"], []⟩, []⟩ = .ok c →
      (∀ br, c.boot_report = some br →
        ("subject", "s") ∉ br.fields ∧ br.mua = none)) := by
  refine ⟨rfl, ?_⟩
  intro c hc br hbr
  have : c = ⟨[], [], some ⟨none, some ["x", "y"], []⟩, []⟩ := by
    injection hc with h
    exact h.symm
  subst this
  injection hbr with h
  subst h
  exact ⟨by decide, rfl⟩

/-- C8 amended: scalars from `b` override `a`; `execs`/`tasks` are
concatenated and an id in both is fatal; declaring `mua` on both sides'
`boot-report` is fatal; when both sides have a `boot-report`, the result's
`boot-report` is `b`'s object with `mail-to` replaced by the concatenation
of the two lists — fields (and `mua`) present only in `a`'s `boot-report`
are dropped, not preserved. -/
theorem merge_conf_rules :
    (∀ a b : Conf, (a.execs.map Prod.fst).inter (b.execs.map Prod.fst) ≠ [] →
      merge_conf a b = .error .dupExecs) ∧
    (∀ a b : Conf, (a.execs.map Prod.fst).inter (b.execs.map Prod.fst) = [] →
      (a.tasks.map Prod.fst).inter (b.tasks.map Prod.fst) ≠ [] →
      merge_conf a b = .error .dupTasks) ∧
    (∀ a b : Conf, ∀ abr bbr : BootRep,
      (a.execs.map Prod.fst).inter (b.execs.map Prod.fst) = [] →
      (a.tasks.map Prod.fst).inter (b.tasks.map Prod.fst) = [] →
      a.boot_report = some abr → b.boot_report = some bbr →
      abr.mua.isSome = true → bbr.mua.isSome = true →
      merge_conf a b = .error .muaOverride) ∧
    (∀ a b : Conf, ∀ abr bbr : BootRep, ∀ am bm : List String,
      (a.execs.map Prod.fst).inter (b.execs.map Prod.fst) = [] →
      (a.tasks.map Prod.fst).inter (b.tasks.map Prod.fst) = [] →
      a.boot_report = some abr → b.boot_report = some bbr →
      ¬ (abr.mua.isSome = true ∧ bbr.mua.isSome = true) →
      abr.mail_to = some am → bbr.mail_to = some bm →
      merge_conf a b = .ok {
        execs := a.execs ++ b.execs,
        tasks := a.tasks ++ b.tasks,
        boot_report := some ⟨bbr.mua, some (am ++ bm), bbr.fields⟩,
        scalars := unionRight a.scalars b.scalars }) ∧
    (∀ a b : Conf,
      (a.execs.map Prod.fst).inter (b.execs.map Prod.fst) = [] →
      (a.tasks.map Prod.fst).inter (b.tasks.map Prod.fst) = [] →
      b.boot_report = none →
      merge_conf a b = .ok {
        execs := a.execs ++ b.execs,
        tasks := a.tasks ++ b.tasks,
        boot_report := a.boot_report,
        scalars := unionRight a.scalars b.scalars }) := by
  refine ⟨?_, ?_, ?_, ?_, ?_⟩
  · intro a b he
    rw [merge_conf, if_pos he]
  · intro a b he ht
    rw [merge_conf, if_neg (by simp [he]), if_pos ht]
  · intro a b abr bbr he ht ha hb hma hmb
    rw [merge_conf, if_neg (by simp [he]), if_neg (by simp [ht])]
    simp only [ha, hb]
    rw [if_pos ⟨hma, hmb⟩]
  · intro a b abr bbr am bm he ht ha hb hm ham hbm
    rw [merge_conf, if_neg (by simp [he]), if_neg (by simp [ht])]
    simp only [ha, hb, ham, hbm]
    rw [if_neg hm]
  · intro a b he ht hb
    rw [merge_conf, if_neg (by simp [he]), if_neg (by simp [ht])]
    simp only [hb]
    cases ha : a.boot_report <;> simp

/-! ## Exec templates (`Exec`, `Exec.mkappend`, `Exec.from_conf`)

`ctx.exec_map` is embedded as an association list from exec-id to `Exec`
value; Python's object aliasing (looking up yields the stored object
itself, so assigning to its attributes updates the registry) is embedded
by explicitly returning the updated registry from `from_conf`. -/

structure Exec where
  argv : List String
  env : List (String × String)
  ec : EcRange
  vl_stderr : Int
  vl_stdout : Int
deriving DecidableEq, Repr

/-- Embeds `Exec.mkappend`: deep-copy, extend argv, overlay env (right wins). -/
def mkappend (e : Exec) (extra_argv : List String)
    (extra_env : List (String × String)) : Exec :=
  { e with argv := e.argv ++ extra_argv, env := unionRight e.env extra_env }

inductive StageTy where
  | exec
  | execAppend
  | execInline
deriving DecidableEq, Repr

/-- A pipeline/routine stage entry, with the fields `from_conf` and
`Exec.__init__` read (`ec` holds the effective `jobj.get("ec", "0")`
string; absent `vl-stderr`/`vl-stdout` are `none`). -/
structure StageConf where
  type : StageTy
  exec_id : String
  argv : List String
  env : List (String × String)
  ec : List Char
  vl_stderr : Option Int
  vl_stdout : Option Int
deriving DecidableEq, Repr

/-- The two trailing statements of `from_conf`:
`ret.vl_stderr = jobj.get("vl-stderr", ret.vl_stderr)` and likewise for
stdout. -/
def applyVl (e : Exec) (j : StageConf) : Exec :=
  { e with vl_stderr := j.vl_stderr.getD e.vl_stderr,
           vl_stdout := j.vl_stdout.getD e.vl_stdout }

/-- Embeds `Exec.__init__(jobj)` (defaults `ec="0"`, `vl_stderr=ERROR=40`,
`vl_stdout=INFO=20`); `none` models the `ValueError` from `parse_ec`. -/
def execFromJobj (j : StageConf) : Option Exec :=
  (parse_ec j.ec).map (fun r => {
    argv := j.argv, env := j.env, ec := r,
    vl_stderr := j.vl_stderr.getD 40,
    vl_stdout := j.vl_stdout.getD 20 })

/-- Embeds `Exec.from_conf(ctx, jobj)`: returns the resolved stage Exec and the
exec registry afterwards.  For type `exec` the returned object is the
registry's own entry, so the vl-override assignments write through to the
registry (`aset`); `exec-append` and `exec-inline` operate on fresh
objects. -/
def from_conf (em : List (String × Exec)) (j : StageConf) :
    Option (Exec × List (String × Exec)) :=
  match j.type with
  | .exec =>
    match alookup em j.exec_id with
    | none => none
    | some e =>
      let ret := applyVl e j
      some (ret, aset em j.exec_id ret)
  | .execAppend =>
    match alookup em j.exec_id with
    | none => none
    | some e => some (applyVl (mkappend e j.argv j.env) j, em)
  | .execInline =>
    match execFromJobj j with
    | none => none
    | some e => some (applyVl e j, em)

theorem aset_of_not_mem {β : Type} (mp : List (String × β)) (k : String)
    (v : β) (h : k ∉ mp.map Prod.fst) : aset mp k v = mp := by
  induction mp with
  | nil => rfl
  | cons e rest ih =>
    rw [aset_cons, if_neg (fun he => h (by simp [← he]))]
    rw [ih (fun hm => h (by simp [hm]))]

theorem aset_self {β : Type} (mp : List (String × β)) (k : String) (v : β)
    (hnd : (mp.map Prod.fst).Nodup) (h : alookup mp k = some v) :
    aset mp k v = mp := by
  induction mp with
  | nil => rfl
  | cons e rest ih =>
    rw [aset_cons]
    rw [alookup_cons] at h
    by_cases he : e.1 = k
    · rw [if_pos he]
      rw [if_pos he] at h
      injection h with hv
      subst hv
      have hknotin : k ∉ rest.map Prod.fst := by
        rw [← he]
        exact (List.nodup_cons.mp (by simpa using hnd)).1
      rw [aset_of_not_mem rest k _ hknotin]
      have : (k, e.2) = e := by
        obtain ⟨e1, e2⟩ := e
        simp only at he
        rw [he]
      rw [this]
    · rw [if_neg he]
      rw [if_neg he] at h
      rw [ih (List.nodup_cons.mp (by simpa using hnd)).2 h]

/-- The registered template `t`. -/
def tmplEx : Exec := ⟨["/bin/true"], [], ⟨0, 1⟩, 40, 20⟩

/-- A stage of type `exec` referencing `t` with a `vl-stdout` override. -/
def stageEx : StageConf := ⟨.exec, "t", [], [], ['0'], none, some 99⟩

/-- C9 counterexample: resolving a type-`exec` stage with a `vl-stdout`
override returns the registry's own Exec object and mutates it in place,
so the Exec stored in `exec_map` changes. -/
theorem from_conf_mutates_template :
    from_conf [("t", tmplEx)] stageEx =
      some (⟨["/bin/true"], [], ⟨0, 1⟩, 40, 99⟩,
        [("t", ⟨["/bin/true"], [], ⟨0, 1⟩, 40, 99⟩)]) ∧
    (from_conf [("t", tmplEx)] stageEx).map Prod.snd ≠
      some [("t", tmplEx)] := by
  exact ⟨rfl, by decide⟩

/-- C9 amended: `mkappend` is pure — it returns a new Exec whose argv is
the original extended with the extras and whose env is the original
overlaid with the extras (right wins), with ec and both verbosity gates
unchanged and the receiver untouched (it deep-copies); `exec-append` and
`exec-inline` stages never change the registry; a type-`exec` stage with
no vl overrides returns the template and leaves the registry unchanged;
but a type-`exec` stage returns the registry's own entry, and with a
vl override the overridden Exec is written back into the registry. -/
theorem exec_template_rules :
    (∀ (e : Exec) (av : List String) (ev : List (String × String)),
      (mkappend e av ev).argv = e.argv ++ av ∧
      (mkappend e av ev).env = unionRight e.env ev ∧
      (mkappend e av ev).ec = e.ec ∧
      (mkappend e av ev).vl_stderr = e.vl_stderr ∧
      (mkappend e av ev).vl_stdout = e.vl_stdout) ∧
    (∀ (em : List (String × Exec)) (j : StageConf) (r : Exec × List (String × Exec)),
      j.type = .execAppend → from_conf em j = some r → r.2 = em) ∧
    (∀ (em : List (String × Exec)) (j : StageConf) (r : Exec × List (String × Exec)),
      j.type = .execInline → from_conf em j = some r → r.2 = em) ∧
    (∀ (em : List (String × Exec)) (j : StageConf) (e : Exec),
      (em.map Prod.fst).Nodup → j.type = .exec →
      j.vl_stderr = none → j.vl_stdout = none →
      alookup em j.exec_id = some e → from_conf em j = some (e, em)) ∧
    (∀ (em : List (String × Exec)) (j : StageConf) (r : Exec × List (String × Exec)),
      j.type = .exec → from_conf em j = some r →
      r.2 = aset em j.exec_id r.1) := by
  refine ⟨?_, ?_, ?_, ?_, ?_⟩
  · intro e av ev
    exact ⟨rfl, rfl, rfl, rfl, rfl⟩
  · intro em j r hty h
    simp only [from_conf, hty] at h
    cases halk : alookup em j.exec_id with
    | none => rw [halk] at h; exact Option.noConfusion h
    | some e =>
      rw [halk] at h
      injection h with h
      subst h
      rfl
  · intro em j r hty h
    simp only [from_conf, hty] at h
    cases hfj : execFromJobj j with
    | none => rw [hfj] at h; exact Option.noConfusion h
    | some e =>
      rw [hfj] at h
      injection h with h
      subst h
      rfl
  · intro em j e hnd hty h1 h2 halk
    simp only [from_conf, hty, halk]
    have hap : applyVl e j = e := by
      obtain ⟨a1, a2, a3, a4, a5⟩ := e
      simp [applyVl, h1, h2]
    rw [hap, aset_self em j.exec_id e hnd halk]
  · intro em j r hty h
    simp only [from_conf, hty] at h
    cases halk : alookup em j.exec_id with
    | none => rw [halk] at h; exact Option.noConfusion h
    | some e =>
      rw [halk] at h
      injection h with h
      subst h
      rfl

/-- Concrete instance of the merge rules: both sides declare
`boot-report`, only `a` declares `mua`, and the result is `b`'s
`boot-report` with the concatenated `mail-to`. -/
theorem merge_conf_rules_witness :
    merge_conf ⟨[], [], some ⟨some "m", some ["x"], []⟩, []⟩
        ⟨[], [], some ⟨none, some ["y"], [("s", "t")]⟩, []⟩ =
      .ok ⟨[], [], some ⟨none, some ["x", "y"], [("s", "t")]⟩, []⟩ :=
  merge_conf_rules.2.2.2.1
    ⟨[], [], some ⟨some "m", some ["x"], []⟩, []⟩
    ⟨[], [], some ⟨none, some ["y"], [("s", "t")]⟩, []⟩
    ⟨some "m", some ["x"], []⟩ ⟨none, some ["y"], [("s", "t")]⟩
    ["x"] ["y"] rfl rfl rfl rfl (by simp) rfl rfl

/-- Concrete instance of the template rules: a type-`exec` stage with no
overrides returns the registered template and leaves the registry
unchanged. -/
theorem exec_template_rules_witness :
    from_conf [("t", tmplEx)] ⟨.exec, "t", [], [], ['0'], none, none⟩ =
      some (tmplEx, [("t", tmplEx)]) :=
  exec_template_rules.2.2.2.1 [("t", tmplEx)]
    ⟨.exec, "t", [], [], ['0'], none, none⟩ tmplEx
    (by decide) rfl rfl rfl rfl

/-! ## Configuration loading (`load_conf`)

The filesystem is embedded as a map from (absolute, hence
realpath-stable) path to parsed document; `load_conf`'s include-set
parameter is threaded explicitly and returned, which makes Python's
mutable-default-argument behaviour expressible: the set returned by one
top-level call is the set the next top-level call starts from. -/

/-- A parsed configuration file: its `include` list and the rest of the
document. -/
structure Document where
  includes : List String
  conf : Conf
deriving DecidableEq, Repr

inductive LoadErr where
  | includeCycle
  | notFound
  | merge (e : MergeErr)
  | fuel
deriving DecidableEq, Repr

mutual

/-- Embeds `load_conf(path, inc_set)`: check and extend the include set, look the
file up, then fold the includes with `merge_conf`.  Returns the merged
document together with the include set as left after the call. -/
def load_conf (fs : List (String × Document)) : Nat → String → List String →
    Except LoadErr (Conf × List String)
  | 0, _, _ => .error .fuel
  | fuel + 1, path, inc_set =>
    if path ∈ inc_set then .error .includeCycle
    else
      match alookup fs path with
      | none => .error .notFound
      | some doc => loadIncludes fs fuel doc.includes doc.conf (inc_set ++ [path])

/-- The `for i in jobj.get("include", ...)` loop. -/
def loadIncludes (fs : List (String × Document)) : Nat → List String → Conf →
    List String → Except LoadErr (Conf × List String)
  | 0, _, _, _ => .error .fuel
  | _ + 1, [], jobj, inc => .ok (jobj, inc)
  | fuel + 1, i :: rest, jobj, inc =>
    match load_conf fs fuel i inc with
    | .error e => .error e
    | .ok (inc_conf, inc') =>
      match merge_conf jobj inc_conf with
      | .error e => .error (.merge e)
      | .ok merged => loadIncludes fs fuel rest merged inc'

end

theorem load_mono (fs : List (String × Document)) : ∀ fuel : Nat,
    (∀ p inc c s, load_conf fs fuel p inc = .ok (c, s) →
      ∀ x, x ∈ inc ++ [p] → x ∈ s) ∧
    (∀ l j inc c s, loadIncludes fs fuel l j inc = .ok (c, s) →
      ∀ x, x ∈ inc → x ∈ s) := by
  intro fuel
  induction fuel with
  | zero =>
    constructor
    · intro p inc c s h
      exact Except.noConfusion h
    · intro l j inc c s h
      exact Except.noConfusion h
  | succ fuel ih =>
    constructor
    · intro p inc c s h
      rw [load_conf] at h
      by_cases hp : p ∈ inc
      · rw [if_pos hp] at h
        exact Except.noConfusion h
      · rw [if_neg hp] at h
        cases halk : alookup fs p with
        | none => rw [halk] at h; exact Except.noConfusion h
        | some doc =>
          rw [halk] at h
          exact fun x hx => ih.2 doc.includes doc.conf (inc ++ [p]) c s h x hx
    · intro l j inc c s h
      cases l with
      | nil =>
        rw [loadIncludes] at h
        injection h with h
        intro x hx
        have hs : inc = s := congrArg Prod.snd h
        rw [← hs]
        exact hx
      | cons i rest =>
        rw [loadIncludes] at h
        cases hlc : load_conf fs fuel i inc with
        | error e => rw [hlc] at h; exact Except.noConfusion h
        | ok pr =>
          obtain ⟨inc_conf, inc'⟩ := pr
          rw [hlc] at h
          have h' : (match merge_conf j inc_conf with
              | .error e => .error (LoadErr.merge e)
              | .ok merged => loadIncludes fs fuel rest merged inc') =
              Except.ok (c, s) := h
          cases hm : merge_conf j inc_conf with
          | error e => rw [hm] at h'; exact Except.noConfusion h'
          | ok merged =>
            rw [hm] at h'
            intro x hx
            have hx' : x ∈ inc' :=
              ih.1 i inc inc_conf inc' hlc x (List.mem_append_left _ hx)
            exact ih.2 rest merged inc' c s h' x hx'

/-- C10: because the Python include set is a shared mutable default
argument, a successful top-level `load_conf(p)` leaves `realpath(p)` in
the set, and a second top-level call on the same path — starting, per the
default-argument semantics, from the set the first call left behind —
fails immediately with the include-cycle error, for every filesystem
(cyclic or not). -/
theorem second_load_conf_fails (fs : List (String × Document))
    (fuel fuel2 : Nat) (p : String) (c : Conf) (s : List String)
    (h : load_conf fs fuel p [] = .ok (c, s)) :
    load_conf fs (fuel2 + 1) p s = .error .includeCycle := by
  have hp : p ∈ s := (load_mono fs fuel).1 p [] c s h p (by simp)
  rw [load_conf, if_pos hp]

/-- Concrete instance of the second-load failure: a single self-contained
configuration file at path `/a` with no includes. -/
theorem second_load_conf_fails_witness :
    load_conf [("/a", ⟨[], ⟨[], [], none, []⟩⟩)] 2 "/a" [] =
      .ok (⟨[], [], none, []⟩, ["/a"]) ∧
    load_conf [("/a", ⟨[], ⟨[], [], none, []⟩⟩)] 3 "/a" ["/a"] =
      .error .includeCycle :=
  ⟨rfl, second_load_conf_fails [("/a", ⟨[], ⟨[], [], none, []⟩⟩)] 2 2 "/a"
    ⟨[], [], none, []⟩ ["/a"] rfl⟩

end PALHM
